import Mathlib

/-!
Verification of the `Davut-oge/text-to-speech` pipeline (src/app.py).

Strings are modelled as `List Char`.  The functions below are shallow
embeddings of the Python functions `clean_text`, `split_text`,
`convert_text_to_speech`, `convert_pdf_to_speech` and `main_cli`.
-/

/-- Python whitespace for `str` patterns: the characters on which
`str.isspace()` holds and which `\s` matches in a `re` pattern
(ASCII controls 0x09-0x0D, 0x1C-0x1F, space, 0x85, 0xA0 and the
Unicode space and line/paragraph separators). -/
def isPySpace (c : Char) : Bool :=
  let n := c.toNat
  (0x09 ≤ n && n ≤ 0x0D) || n == 0x20 || (0x1C ≤ n && n ≤ 0x1F) ||
  n == 0x85 || n == 0xA0 || n == 0x1680 ||
  (0x2000 ≤ n && n ≤ 0x200A) || n == 0x2028 || n == 0x2029 ||
  n == 0x202F || n == 0x205F || n == 0x3000

/-- Scanner for `re.sub(r'\s+', ' ', text)` (app.py line 83): each maximal
run of whitespace is replaced by one space.  The flag records whether we
are inside a run whose single replacement space has already been emitted. -/
def collapseWsAux : Bool → List Char → List Char
  | _, [] => []
  | inRun, c :: cs =>
    if isPySpace c then
      if inRun then collapseWsAux true cs
      else ' ' :: collapseWsAux true cs
    else c :: collapseWsAux false cs

/-- `re.sub(r'\s+', ' ', text)`. -/
def collapseWs (s : List Char) : List Char := collapseWsAux false s

/-- `re.sub(r'[^\x20-\x7E]', ' ', text)` (app.py line 85): every character
outside printable ASCII becomes a space. -/
def asciiFilter (s : List Char) : List Char :=
  s.map fun c => if 0x20 ≤ c.toNat && c.toNat ≤ 0x7E then c else ' '

/-- Scanner for `re.sub(r'\s*-\s*', '-', text)` (app.py line 87).
`pending` buffers a whitespace run whose fate is undecided (kept verbatim
unless a hyphen follows, in which case the run belongs to the leading
`\s*` of the match); `afterDash` records that we are consuming the greedy
trailing `\s*` of a match. -/
def hyphenFixAux : List Char → Bool → List Char → List Char
  | pending, _, [] => pending
  | pending, afterDash, c :: cs =>
    if isPySpace c then
      if afterDash then hyphenFixAux [] true cs
      else hyphenFixAux (pending ++ [c]) false cs
    else if c = '-' then '-' :: hyphenFixAux [] true cs
    else pending ++ c :: hyphenFixAux [] false cs

/-- `re.sub(r'\s*-\s*', '-', text)`. -/
def hyphenFix (s : List Char) : List Char := hyphenFixAux [] false s

/-- Python `\w` on its clean_text domain.  Inside `clean_text` this
predicate is only ever applied after the printable-ASCII pass, so the
ASCII reading of `\w` is exact there. -/
def isWordChar (c : Char) : Bool := c.isAlpha || c.isDigit || c = '_'

/-- One attempted match of `\bPage \d+\b` starting at the head of `s`;
`prevIsWord` tells whether the character before `s` (in the original
string) is a word character, which decides the left word boundary.
Returns the rest of the string after the match.  The digit run is
greedy, and backtracking out of `\d+` can never satisfy the final `\b`,
so the match needs the first character after the digit run to be
non-word (or the end of the string). -/
def tryPage (prevIsWord : Bool) (s : List Char) : Option (List Char) :=
  match prevIsWord, s with
  | false, 'P' :: 'a' :: 'g' :: 'e' :: ' ' :: d :: rest =>
    if d.isDigit then
      match (d :: rest).dropWhile Char.isDigit with
      | [] => some []
      | e :: tail => if isWordChar e then none else some (e :: tail)
    else none
  | _, _ => none

/-- Scanner for `re.sub(r'\bPage \d+\b', '', text)` (app.py line 89).
Word boundaries are judged on the original string, so after deleting a
match the previous character is the final digit (a word character).
Each step consumes at least one character, hence fuel `s.length`
(supplied by `pageRemove`) always suffices; the fuel-0 fallback is
never reached from `pageRemove`. -/
def pageRemoveGo : Nat → Bool → List Char → List Char
  | 0, _, s => s
  | fuel + 1, prevW, s =>
    match s with
    | [] => []
    | c :: cs =>
      match tryPage prevW (c :: cs) with
      | some rest => pageRemoveGo fuel true rest
      | none => c :: pageRemoveGo fuel (isWordChar c) cs

/-- `re.sub(r'\bPage \d+\b', '', text)`. -/
def pageRemove (s : List Char) : List Char := pageRemoveGo s.length false s

/-- Scanner deciding whether `\bPage \d+\b` matches anywhere; mirrors
the traversal of `pageRemoveGo`. -/
def containsPageTokGo : Nat → Bool → List Char → Bool
  | 0, _, _ => false
  | fuel + 1, prevW, s =>
    match s with
    | [] => false
    | c :: cs =>
      match tryPage prevW (c :: cs) with
      | some _ => true
      | none => containsPageTokGo fuel (isWordChar c) cs

/-- Whether the page-number pattern `\bPage \d+\b` occurs in `s`. -/
def containsPageTok (s : List Char) : Bool := containsPageTokGo s.length false s

/-- `re.sub(r'[“”]', '"', text)` (app.py line 91). -/
def fixDq (s : List Char) : List Char :=
  s.map fun c => if c = '“' || c = '”' then '"' else c

/-- `re.sub(r'[‘’]', "'", text)` (app.py line 92). -/
def fixSq (s : List Char) : List Char :=
  s.map fun c => if c = '‘' || c = '’' then '\'' else c

/-- Python `str.strip()`: remove whitespace from both ends. -/
def pyStrip (s : List Char) : List Char :=
  ((s.dropWhile isPySpace).reverse.dropWhile isPySpace).reverse

/-- `clean_text` (app.py lines 79-97): the five substitutions in source
order followed by `strip()`. -/
def clean_text (text : List Char) : List Char :=
  pyStrip (fixSq (fixDq (pageRemove (hyphenFix (asciiFilter (collapseWs text))))))

/-- The boundary characters of `split_text` (app.py line 111), in the
source's priority order. -/
def boundaries : List Char := ['.', '!', '?', ';', '\n', '。', '！', '？', '；']

/-- Index of the last occurrence of `c` in `t`, if any.  `rlast c (t.take m)`
is Python's `t.rfind(c, 0, m)` with `none` in place of `-1`. -/
def rlast (c : Char) : List Char → Option Nat
  | [] => none
  | a :: as =>
    match rlast c as with
    | some i => some (i + 1)
    | none => if a = c then some 0 else none

/-- The `for boundary in [...]` loop of `split_text` (app.py lines 110-115):
starting from `split_index = max_chars`, take `index + 1` for the first
boundary character whose `rfind` within the first `m` characters lands at a
positive index, else keep `m`. -/
def findSplit (s : List Char) (m : Nat) : List Char → Nat
  | [] => m
  | b :: bs =>
    match rlast b (s.take m) with
    | some i => if 0 < i then i + 1 else findSplit s m bs
    | none => findSplit s m bs

/-- The `while text:` loop of `split_text` (app.py lines 104-118), indexed by
fuel.  Every iteration consumes at least one character when `1 ≤ max_chars`,
so fuel `text.length + 1` (supplied by `split_text`) suffices; for
`max_chars = 0` the Python loop does not terminate on non-trimmable input,
which surfaces here as fuel-dependence. -/
def split_textGo (max_chars : Nat) : Nat → List Char → List (List Char)
  | 0, _ => []
  | fuel + 1, text =>
    if text = [] then []
    else if text.length ≤ max_chars then [text]
    else
      let k := findSplit text max_chars boundaries
      text.take k :: split_textGo max_chars fuel (pyStrip (text.drop k))

/-- `split_text` (app.py lines 100-124). -/
def split_text (text : List Char) (max_chars : Nat) : List (List Char) :=
  split_textGo max_chars (text.length + 1) text

/-- Left-trim only (`dropWhile` of whitespace), as the spec's words
"the remainder is left-trimmed" describe. -/
def lstripPy (s : List Char) : List Char := s.dropWhile isPySpace

/-- Whether some occurrence of `b` within the first `m` characters of `s`
sits at a position `> 0` — the pick condition stated by the spec. -/
def hasOccPos (s : List Char) (b : Char) (m : Nat) : Bool :=
  (List.range m).any fun i => decide (0 < i) && (s[i]? == some b)

/-- The split point as the spec words it: scan the boundary types in
priority order, pick the first one having an occurrence at position `> 0`
within the first `m` characters, and split right after its right-most
occurrence; with no such type, split at `m`. -/
def specSplitPoint (s : List Char) (m : Nat) : Nat :=
  match boundaries.find? (fun b => hasOccPos s b m) with
  | some b =>
    match rlast b (s.take m) with
    | some i => i + 1
    | none => m
  | none => m

/-- The chunking loop as described by the spec, parameterized by the trim
applied to the remainder after each split. -/
def split_textSpecGo (trim : List Char → List Char) (max_chars : Nat) :
    Nat → List Char → List (List Char)
  | 0, _ => []
  | fuel + 1, text =>
    if text = [] then []
    else if text.length ≤ max_chars then [text]
    else
      let k := specSplitPoint text max_chars
      text.take k :: split_textSpecGo trim max_chars fuel (trim (text.drop k))

/-- The chunker exactly as claim C1 words it: spec split point, remainder
left-trimmed between iterations. -/
def split_textSpecLeftTrim (text : List Char) (max_chars : Nat) : List (List Char) :=
  split_textSpecGo lstripPy max_chars (text.length + 1) text

/-- The chunker as claim C1 amended: spec split point, remainder trimmed of
whitespace on both ends between iterations (Python `strip()`). -/
def split_textSpecBothTrim (text : List Char) (max_chars : Nat) : List (List Char) :=
  split_textSpecGo pyStrip max_chars (text.length + 1) text

/-- Error text of the message raised when ffmpeg is missing (app.py line 131). -/
def ffmpegMsg : List Char :=
  ("ffmpeg is required but not found. Please install ffmpeg and add it to PATH.").data

/-- Message of the IndexError raised by `audio_segments[0]` on an empty list
(app.py line 183). -/
def indexErrMsg : List Char := ("list index out of range").data

/-- Wrapper text prepended by `convert_text_to_speech`'s outer handler
(app.py line 210). -/
def ttsFailMsgHead : List Char := ("Text-to-speech conversion failed: ").data

/-- Soft-failure message for empty extraction (app.py line 225). -/
def noTextMsg : List Char :=
  ("No text extracted from PDF. The file may be scanned or image-based.").data

/-- Success message (app.py line 231). -/
def successMsg : List Char := ("Conversion successful!").data

/-- Wrapper text prepended by `convert_pdf_to_speech`'s handler (app.py line 233). -/
def convFailMsgHead : List Char := ("PDF to speech conversion failed: ").data

/-- Message of the FileNotFoundError raised at app.py line 220. -/
def notFoundMsgHead : List Char := ("PDF file not found: ").data

/-- The per-chunk synthesis loop (app.py lines 157-175): each chunk goes to
the external TTS service and is decoded to an audio segment (modelled as a
sample list); any failure (network, empty temp file, decode) aborts the
whole loop.  The external call is the oracle `synth`. -/
def synthChunks (synth : List Char → Except (List Char) (List Int)) :
    List (List Char) → Except (List Char) (List (List Int))
  | [] => Except.ok []
  | c :: cs =>
    match synth c with
    | Except.error e => Except.error e
    | Except.ok seg =>
      match synthChunks synth cs with
      | Except.error e => Except.error e
      | Except.ok segs => Except.ok (seg :: segs)

/-- `convert_text_to_speech` (app.py lines 127-212): ffmpeg gate, chunking
with the default `max_chars = 1000`, per-chunk synthesis, then assembly
starting from `audio_segments[0]` — which raises IndexError on an empty
segment list — and pydub `+` concatenation (sample-list append).  Export to
disk is abstracted into the returned combined segment; every exception is
re-raised wrapped in the `Text-to-speech conversion failed:` message. -/
def convert_text_to_speech (ffmpegAvailable : Bool)
    (synth : List Char → Except (List Char) (List Int)) (text : List Char) :
    Except (List Char) (List Int) :=
  if ffmpegAvailable = false then Except.error (ttsFailMsgHead ++ ffmpegMsg)
  else
    match synthChunks synth (split_text text 1000) with
    | Except.error e => Except.error (ttsFailMsgHead ++ e)
    | Except.ok segs =>
      match segs with
      | [] => Except.error (ttsFailMsgHead ++ indexErrMsg)
      | s :: rest => Except.ok (rest.foldl (fun a b => a ++ b) s)

/-- `convert_pdf_to_speech` (app.py lines 215-235).  The filesystem check and
the extractor are oracles (`pdfExists`, `extract`); the function catches every
exception and returns a `(success, message)` pair, so its model is a total
function into a pair — an empty extraction is answered with the soft-failure
tuple, not an error. -/
def convert_pdf_to_speech (pdf_path : List Char) (pdfExists ffmpegAvailable : Bool)
    (extract : Except (List Char) (List Char))
    (synth : List Char → Except (List Char) (List Int)) : Bool × List Char :=
  if pdfExists = false then (false, convFailMsgHead ++ (notFoundMsgHead ++ pdf_path))
  else
    match extract with
    | Except.error e => (false, convFailMsgHead ++ e)
    | Except.ok rawText =>
      if rawText = [] then (false, noTextMsg)
      else
        match convert_text_to_speech ffmpegAvailable synth (clean_text rawText) with
        | Except.error e => (false, convFailMsgHead ++ e)
        | Except.ok _ => (true, successMsg)

/-- Arguments produced by `argparse` in `main_cli` (app.py lines 442-447):
`type=float` converts the `-s` value and `default=1.0` fills it in, but no
range constraint is declared.  The float is modelled as a rational. -/
structure CliArgs where
  pdf_file : List Char
  output_file : List Char
  lang : List Char := ("en").data
  speed : Rat := 1

/-- Python `int()` truncation toward zero on a rational. -/
def pyInt (q : Rat) : Int := if 0 ≤ q then ⌊q⌋ else ⌈q⌉

/-- Observable outcome of a `main_cli` run. -/
inductive CliResult where
  | inputNotFound : CliResult
  | outputDirError : CliResult
  | failed : List Char → CliResult
  | succeeded : Option Int → CliResult
deriving DecidableEq

/-- `main_cli` after argument parsing (app.py lines 449-484): existence
check, output-directory creation (oracle `mkdirOk`), the pipeline call, then
— whenever `args.speed != 1.0`, with no range check anywhere — the sample
rate reinterpretation `int(audio.frame_rate * args.speed)`.  `succeeded r`
records the new sample rate (`none` when no adjustment ran; a failed
adjustment only downgrades to a warning, so it stays `succeeded`). -/
def main_cli (args : CliArgs) (pdfExists mkdirOk ffmpegAvailable : Bool)
    (extract : Except (List Char) (List Char))
    (synth : List Char → Except (List Char) (List Int))
    (frame_rate : Nat) : CliResult :=
  if pdfExists = false then CliResult.inputNotFound
  else if mkdirOk = false then CliResult.outputDirError
  else
    match convert_pdf_to_speech args.pdf_file pdfExists ffmpegAvailable extract synth with
    | (true, _) =>
      if args.speed = 1 then CliResult.succeeded none
      else CliResult.succeeded (some (pyInt ((frame_rate : Rat) * args.speed)))
    | (false, msg) => CliResult.failed msg

/-- Chunk-concatenation with whitespace reinserted after every chunk
(between consecutive chunks and after the last one); leftover text with no
chunks must be pure whitespace. -/
def Rebuilds : List (List Char) → List Char → Prop
  | [], t => ∀ c ∈ t, isPySpace c = true
  | c :: cs, t => ∃ w t2, (∀ x ∈ w, isPySpace x = true) ∧ t = c ++ w ++ t2 ∧ Rebuilds cs t2

/-- Chunk-concatenation with whitespace reinserted only between consecutive
chunks — the reading stated by claim C4 ("undoing the leading-whitespace
trim applied between chunks"). -/
def RebuildsBetween : List (List Char) → List Char → Prop
  | [], t => t = []
  | [c], t => t = c
  | c :: cs, t => ∃ w t2, (∀ x ∈ w, isPySpace x = true) ∧ t = c ++ w ++ t2 ∧ RebuildsBetween cs t2

/-- Text on which the whitespace-collapsing pass is the identity: every
whitespace character is a plain space not followed by more whitespace. -/
def wsOk : List Char → Bool
  | [] => true
  | [c] => !isPySpace c || c == ' '
  | c :: d :: rest =>
    (!isPySpace c || (c == ' ' && !isPySpace d)) && wsOk (d :: rest)

/-- Text on which the hyphen-joining pass is the identity: no whitespace
character directly before or after a hyphen. -/
def hyphenOk : List Char → Bool
  | [] => true
  | [_] => true
  | c :: d :: rest =>
    !(isPySpace c && d == '-') && !(c == '-' && isPySpace d) && hyphenOk (d :: rest)

/-! ### Lemmas about `rlast` -/

theorem rlast_none (c : Char) (t : List Char) (h : rlast c t = none) :
    ∀ i : Nat, t[i]? ≠ some c := by
  induction t with
  | nil => intro i; rw [List.getElem?_nil]; simp
  | cons a as ih =>
    intro i
    rw [rlast] at h
    rcases hr : rlast c as with _ | j
    · rw [hr] at h
      by_cases hac : a = c
      · simp [hac] at h
      · cases i with
        | zero => simpa using fun hh => hac hh
        | succ i => simpa using ih hr i
    · rw [hr] at h; exact absurd h (by simp)

theorem rlast_lt (c : Char) (t : List Char) (i : Nat) (h : rlast c t = some i) :
    i < t.length := by
  induction t generalizing i with
  | nil => simp [rlast] at h
  | cons a as ih =>
    rw [rlast] at h
    rcases hr : rlast c as with _ | j
    · rw [hr] at h
      by_cases hac : a = c
      · simp [hac] at h; simp only [List.length_cons]; omega
      · simp [hac] at h
    · rw [hr] at h
      have hj := ih j hr
      have hji : j + 1 = i := by simpa using h
      simp only [List.length_cons]
      omega

theorem rlast_get (c : Char) (t : List Char) (i : Nat) (h : rlast c t = some i) :
    t[i]? = some c := by
  induction t generalizing i with
  | nil => simp [rlast] at h
  | cons a as ih =>
    rw [rlast] at h
    rcases hr : rlast c as with _ | j
    · rw [hr] at h
      by_cases hac : a = c
      · simp [hac] at h; simp [← h, hac]
      · simp [hac] at h
    · rw [hr] at h
      simp at h
      have := ih j hr
      simp [← h]
      exact this

theorem rlast_max (c : Char) (t : List Char) (i : Nat) (h : rlast c t = some i) :
    ∀ j, i < j → t[j]? ≠ some c := by
  induction t generalizing i with
  | nil => intro j _; simp
  | cons a as ih =>
    intro j hij
    rw [rlast] at h
    rcases hr : rlast c as with _ | k
    · rw [hr] at h
      by_cases hac : a = c
      · simp [hac] at h
        subst h
        cases j with
        | zero => omega
        | succ j => simpa using rlast_none c as hr j
      · simp [hac] at h
    · rw [hr] at h
      simp at h
      subst h
      cases j with
      | zero => omega
      | succ j => simpa using ih k hr j (by omega)

/-! ### Lemmas about `findSplit` and `specSplitPoint` -/

theorem findSplit_le (s : List Char) (m : Nat) :
    ∀ bs, findSplit s m bs ≤ m := by
  intro bs
  induction bs with
  | nil => simp [findSplit]
  | cons b bs ih =>
    rw [findSplit]
    rcases hr : rlast b (s.take m) with _ | i
    · exact ih
    · have hi := rlast_lt b (s.take m) i hr
      have : (s.take m).length ≤ m := by simp
      by_cases h0 : 0 < i
      · simp [h0]; omega
      · simp [h0]; exact ih

theorem findSplit_pos (s : List Char) (m : Nat) (hm : 1 ≤ m) :
    ∀ bs, 1 ≤ findSplit s m bs := by
  intro bs
  induction bs with
  | nil => simpa [findSplit] using hm
  | cons b bs ih =>
    rw [findSplit]
    rcases rlast b (s.take m) with _ | i
    · exact ih
    · by_cases h0 : 0 < i
      · simp [h0]
      · simp [h0]; exact ih

theorem specSplitPoint_eq (s : List Char) (m : Nat) :
    specSplitPoint s m = findSplit s m boundaries := by
  rw [specSplitPoint]
  have main : ∀ bs : List Char,
      (match bs.find? (fun b => hasOccPos s b m) with
       | some b =>
         match rlast b (s.take m) with
         | some i => i + 1
         | none => m
       | none => m) = findSplit s m bs := by
    intro bs
    induction bs with
    | nil => simp [findSplit]
    | cons b bs ih =>
      rw [findSplit, List.find?]
      by_cases hp : hasOccPos s b m = true
      · rw [hp]
        simp only
        rw [hasOccPos, List.any_eq_true] at hp
        obtain ⟨i, hi, hcond⟩ := hp
        rw [List.mem_range] at hi
        rw [Bool.and_eq_true, decide_eq_true_iff, beq_iff_eq] at hcond
        obtain ⟨hipos, hgot⟩ := hcond
        have hgt : (s.take m)[i]? = some b := by
          rwa [List.getElem?_take_of_lt hi]
        rcases hr : rlast b (s.take m) with _ | j
        · exact absurd hgt (rlast_none b (s.take m) hr i)
        · have hij : i ≤ j := by
            by_contra hlt
            exact rlast_max b (s.take m) j hr i (by omega) hgt
          have : 0 < j := by omega
          simp [this]
      · rw [Bool.not_eq_true] at hp
        rw [hp]
        simp only
        rw [← ih]
        rcases hr : rlast b (s.take m) with _ | j
        · rfl
        · have : ¬ 0 < j := by
            intro hj
            have hget := rlast_get b (s.take m) j hr
            have hjm : j < m := by
              have := rlast_lt b (s.take m) j hr
              have hlen : (s.take m).length ≤ m := by simp
              omega
            have : hasOccPos s b m = true := by
              rw [hasOccPos, List.any_eq_true]
              refine ⟨j, by simpa [List.mem_range] using hjm, ?_⟩
              rw [Bool.and_eq_true, decide_eq_true_iff, beq_iff_eq]
              refine ⟨hj, ?_⟩
              rwa [List.getElem?_take_of_lt hjm] at hget
            simp [this] at hp
          simp [this]
  exact main boundaries

/-! ### Fuel sufficiency and progress of the chunking loop -/

theorem pyStrip_length_le (s : List Char) : (pyStrip s).length ≤ s.length := by
  rw [pyStrip]
  calc ((s.dropWhile isPySpace).reverse.dropWhile isPySpace).reverse.length
      = ((s.dropWhile isPySpace).reverse.dropWhile isPySpace).length := by
        rw [List.length_reverse]
    _ ≤ (s.dropWhile isPySpace).reverse.length := (List.dropWhile_sublist _).length_le
    _ = (s.dropWhile isPySpace).length := by rw [List.length_reverse]
    _ ≤ s.length := (List.dropWhile_sublist _).length_le

theorem split_remainder_shrinks (t : List Char) (m : Nat) (hm : 1 ≤ m)
    (ht : t ≠ []) :
    (pyStrip (t.drop (findSplit t m boundaries))).length < t.length := by
  have hk := findSplit_pos t m hm boundaries
  have h1 : (t.drop (findSplit t m boundaries)).length ≤ t.length - 1 := by
    rw [List.length_drop]
    have : 1 ≤ t.length := List.length_pos.mpr ht
    omega
  have h2 := pyStrip_length_le (t.drop (findSplit t m boundaries))
  have : 1 ≤ t.length := List.length_pos.mpr ht
  omega

theorem split_textGo_fuel (m : Nat) (hm : 1 ≤ m) :
    ∀ n t f, List.length t ≤ n → List.length t < f →
      split_textGo m f t = split_text t m := by
  intro n
  induction n with
  | zero =>
    intro t f h0 hf
    have ht : t = [] := List.eq_nil_of_length_eq_zero (by omega)
    subst ht
    rw [split_text]
    cases f with
    | zero => omega
    | succ f => rw [split_textGo, split_textGo]; simp
  | succ n ih =>
    intro t f h0 hf
    rw [split_text]
    cases f with
    | zero => omega
    | succ f =>
      rw [split_textGo]
      conv_rhs => rw [split_textGo]
      by_cases hnil : t = []
      · simp [hnil]
      · simp only [hnil, if_false]
        by_cases hle : t.length ≤ m
        · simp [hle]
        · simp only [hle, if_false]
          have hsh := split_remainder_shrinks t m hm hnil
          have e1 : split_textGo m f (pyStrip (t.drop (findSplit t m boundaries))) =
              split_text (pyStrip (t.drop (findSplit t m boundaries))) m :=
            ih _ f (by omega) (by omega)
          have e2 : split_textGo m t.length (pyStrip (t.drop (findSplit t m boundaries))) =
              split_text (pyStrip (t.drop (findSplit t m boundaries))) m :=
            ih _ t.length (by omega) (by omega)
          rw [e1, e2]

/-! ### The spec-worded chunker with both-ends trim equals the code -/

theorem split_textSpecGo_bothTrim_eq (m : Nat) :
    ∀ f t, split_textSpecGo pyStrip m f t = split_textGo m f t := by
  intro f
  induction f with
  | zero => intro t; rw [split_textSpecGo, split_textGo]
  | succ f ih =>
    intro t
    rw [split_textSpecGo, split_textGo]
    by_cases hnil : t = []
    · simp [hnil]
    · simp only [hnil, if_false]
      by_cases hle : t.length ≤ m
      · simp [hle]
      · simp only [hle, if_false]
        rw [specSplitPoint_eq, ih]

/-! ### Chunk size bound and non-emptiness -/

theorem split_text_chunk_le_aux (m : Nat) (hm : 1 ≤ m) :
    ∀ n t, List.length t ≤ n → ∀ c ∈ split_text t m, c.length ≤ m := by
  intro n
  induction n with
  | zero =>
    intro t h0 c hc
    have ht : t = [] := List.eq_nil_of_length_eq_zero (by omega)
    subst ht
    rw [split_text, split_textGo] at hc
    simp at hc
  | succ n ih =>
    intro t h0 c hc
    rw [split_text, split_textGo] at hc
    by_cases hnil : t = []
    · simp [hnil] at hc
    · simp only [hnil, if_false] at hc
      by_cases hle : t.length ≤ m
      · simp only [hle, if_true, List.mem_singleton] at hc
        subst hc; exact hle
      · simp only [hle, if_false, List.mem_cons] at hc
        rcases hc with hc | hc
        · subst hc
          rw [List.length_take]
          have := findSplit_le t m boundaries
          omega
        · have hsh := split_remainder_shrinks t m hm hnil
          rw [split_textGo_fuel m hm t.length _ t.length (by omega) (by omega)] at hc
          exact ih (pyStrip (t.drop (findSplit t m boundaries))) (by omega) c hc

theorem split_text_chunks_ne_nil_aux (m : Nat) (hm : 1 ≤ m) :
    ∀ n t, List.length t ≤ n → ∀ c ∈ split_text t m, c ≠ [] := by
  intro n
  induction n with
  | zero =>
    intro t h0 c hc
    have ht : t = [] := List.eq_nil_of_length_eq_zero (by omega)
    subst ht
    rw [split_text, split_textGo] at hc
    simp at hc
  | succ n ih =>
    intro t h0 c hc
    rw [split_text, split_textGo] at hc
    by_cases hnil : t = []
    · simp [hnil] at hc
    · simp only [hnil, if_false] at hc
      by_cases hle : t.length ≤ m
      · simp only [hle, if_true, List.mem_singleton] at hc
        subst hc; exact hnil
      · simp only [hle, if_false, List.mem_cons] at hc
        rcases hc with hc | hc
        · subst hc
          have hk := findSplit_pos t m hm boundaries
          intro hemp
          have : (t.take (findSplit t m boundaries)).length = 0 := by rw [hemp]; rfl
          rw [List.length_take] at this
          have ht1 : 1 ≤ t.length := List.length_pos.mpr hnil
          omega
        · have hsh := split_remainder_shrinks t m hm hnil
          rw [split_textGo_fuel m hm t.length _ t.length (by omega) (by omega)] at hc
          exact ih (pyStrip (t.drop (findSplit t m boundaries))) (by omega) c hc

/-- With `max_chars = 0` the loop never makes progress on `['a', 'b']`:
each round of fuel appends another empty chunk, i.e. the Python loop runs
forever. -/
theorem split_textGo_zero_ab (f : Nat) :
    split_textGo 0 f ['a', 'b'] = List.replicate f [] := by
  induction f with
  | zero => rw [split_textGo]; rfl
  | succ f ih =>
    rw [split_textGo]
    have hk : findSplit ['a', 'b'] 0 boundaries = 0 := by decide
    have hs : pyStrip (List.drop (findSplit ['a', 'b'] 0 boundaries) ['a', 'b']) =
        ['a', 'b'] := by decide
    simp only [hs, ih]
    rw [hk]
    rfl

/-! ### Whitespace decomposition of `pyStrip` and rebuilding -/

theorem mem_takeWhile_isPySpace (l : List Char) :
    ∀ c ∈ l.takeWhile isPySpace, isPySpace c = true := by
  induction l with
  | nil => intro c hc; simp [List.takeWhile] at hc
  | cons a as ih =>
    intro c hc
    by_cases ha : isPySpace a
    · rw [List.takeWhile_cons_of_pos ha] at hc
      rcases List.mem_cons.mp hc with h | h
      · rw [h]; exact ha
      · exact ih c h
    · rw [List.takeWhile_cons_of_neg ha] at hc
      simp at hc

theorem pyStrip_decompose (s : List Char) :
    ∃ w1 w2, (∀ c ∈ w1, isPySpace c = true) ∧ (∀ c ∈ w2, isPySpace c = true) ∧
      s = w1 ++ pyStrip s ++ w2 := by
  refine ⟨s.takeWhile isPySpace,
    ((s.dropWhile isPySpace).reverse.takeWhile isPySpace).reverse,
    mem_takeWhile_isPySpace s, ?_, ?_⟩
  · intro c hc
    rw [List.mem_reverse] at hc
    exact mem_takeWhile_isPySpace _ c hc
  · rw [pyStrip]
    conv_lhs => rw [← List.takeWhile_append_dropWhile (p := isPySpace) (l := s)]
    rw [List.append_assoc]
    congr 1
    conv_lhs => rw [← List.reverse_reverse (s.dropWhile isPySpace)]
    conv_lhs =>
      rw [← List.takeWhile_append_dropWhile (p := isPySpace)
        (l := (s.dropWhile isPySpace).reverse)]
    rw [List.reverse_append]

theorem Rebuilds_append_ws (cs : List (List Char)) :
    ∀ t w, Rebuilds cs t → (∀ c ∈ w, isPySpace c = true) → Rebuilds cs (t ++ w) := by
  induction cs with
  | nil =>
    intro t w ht hw
    rw [Rebuilds] at ht ⊢
    intro c hc
    rcases List.mem_append.mp hc with h | h
    · exact ht c h
    · exact hw c h
  | cons c cs ih =>
    intro t w ht hw
    rw [Rebuilds] at ht ⊢
    obtain ⟨v, t2, hv, heq, hrest⟩ := ht
    exact ⟨v, t2 ++ w, hv, by rw [heq]; simp, ih t2 w hrest hw⟩

theorem split_text_rebuilds_aux (m : Nat) (hm : 1 ≤ m) :
    ∀ n t, List.length t ≤ n → Rebuilds (split_text t m) t := by
  intro n
  induction n with
  | zero =>
    intro t h0
    have ht : t = [] := List.eq_nil_of_length_eq_zero (by omega)
    subst ht
    rw [split_text, split_textGo]
    simp [Rebuilds]
  | succ n ih =>
    intro t h0
    rw [split_text, split_textGo]
    by_cases hnil : t = []
    · simp [hnil, Rebuilds]
    · simp only [hnil, if_false]
      by_cases hle : t.length ≤ m
      · simp only [hle, if_true]
        rw [Rebuilds]
        exact ⟨[], [], by simp, by simp, by rw [Rebuilds]; simp⟩
      · simp only [hle, if_false]
        have hsh := split_remainder_shrinks t m hm hnil
        rw [split_textGo_fuel m hm t.length _ t.length (by omega) (by omega)]
        rw [Rebuilds]
        obtain ⟨w1, w2, hw1, hw2, hdec⟩ :=
          pyStrip_decompose (t.drop (findSplit t m boundaries))
        refine ⟨w1, pyStrip (t.drop (findSplit t m boundaries)) ++ w2, hw1, ?_, ?_⟩
        · conv_lhs => rw [← List.take_append_drop (findSplit t m boundaries) t, hdec]
          simp only [List.append_assoc]
        · exact Rebuilds_append_ws _ _ _ (ih _ (by omega)) hw2

/-! ### Printable-ASCII invariant of the cleaner -/

theorem mem_asciiFilter_printable (s : List Char) :
    ∀ c ∈ asciiFilter s, 0x20 ≤ c.toNat ∧ c.toNat ≤ 0x7E := by
  intro c hc
  rw [asciiFilter, List.mem_map] at hc
  obtain ⟨a, _, ha⟩ := hc
  by_cases h : 0x20 ≤ a.toNat && a.toNat ≤ 0x7E
  · rw [if_pos h] at ha
    rw [Bool.and_eq_true, decide_eq_true_iff, decide_eq_true_iff] at h
    rw [← ha]; exact h
  · rw [if_neg h] at ha
    rw [← ha]; exact ⟨by decide, by decide⟩

theorem mem_hyphenFixAux (P : Char → Prop) (hdash : P '-') :
    ∀ s pending aD, (∀ c ∈ pending, P c) → (∀ c ∈ s, P c) →
      ∀ c ∈ hyphenFixAux pending aD s, P c := by
  intro s
  induction s with
  | nil =>
    intro pending aD hp hs c hc
    rw [hyphenFixAux] at hc
    exact hp c hc
  | cons a as ih =>
    intro pending aD hp hs c hc
    rw [hyphenFixAux] at hc
    by_cases ha : isPySpace a
    · simp only [ha, if_true] at hc
      cases aD with
      | true =>
        exact ih [] true (by simp) (fun x hx => hs x (List.mem_cons_of_mem a hx)) c hc
      | false =>
        refine ih (pending ++ [a]) false ?_ (fun x hx => hs x (List.mem_cons_of_mem a hx)) c hc
        intro x hx
        rcases List.mem_append.mp hx with h | h
        · exact hp x h
        · rw [List.mem_singleton] at h; rw [h]; exact hs a (List.mem_cons_self a as)
    · simp only [ha, if_false] at hc
      by_cases hd : a = '-'
      · simp only [hd, if_true] at hc
        rcases List.mem_cons.mp hc with h | h
        · rw [h]; exact hdash
        · exact ih [] true (by simp) (fun x hx => hs x (List.mem_cons_of_mem a hx)) c h
      · simp only [hd, if_false] at hc
        rcases List.mem_append.mp hc with h | h
        · exact hp c h
        · rcases List.mem_cons.mp h with h2 | h2
          · rw [h2]; exact hs a (List.mem_cons_self a as)
          · exact ih [] false (by simp) (fun x hx => hs x (List.mem_cons_of_mem a hx)) c h2

theorem tryPage_subset (p : Bool) (s : List Char) (r : List Char)
    (h : tryPage p s = some r) : ∀ c ∈ r, c ∈ s := by
  intro c hc
  unfold tryPage at h
  split at h
  · rename_i d rest
    split at h
    · split at h
      · rename_i hdw
        simp only [Option.some_inj] at h
        rw [← h] at hc
        simp at hc
      · rename_i e tail hdw
        split at h
        · exact absurd h (by simp)
        · simp only [Option.some_inj] at h
          rw [← h] at hc
          have hsuffix : e :: tail <:+ d :: rest := by
            rw [← hdw]; exact List.dropWhile_suffix _
          have hmem : c ∈ d :: rest := hsuffix.subset hc
          simp only [List.mem_cons] at hmem ⊢
          tauto
    · exact absurd h (by simp)
  · exact absurd h (by simp)

theorem mem_pageRemoveGo :
    ∀ f p s, ∀ c ∈ pageRemoveGo f p s, c ∈ s := by
  intro f
  induction f with
  | zero => intro p s c hc; rw [pageRemoveGo] at hc; exact hc
  | succ f ih =>
    intro p s c hc
    match s with
    | [] => rw [pageRemoveGo] at hc; exact hc
    | a :: as =>
      rw [pageRemoveGo] at hc
      rcases htp : tryPage p (a :: as) with _ | r
      · rw [htp] at hc
        rcases List.mem_cons.mp hc with h | h
        · rw [h]; exact List.mem_cons_self a as
        · exact List.mem_cons_of_mem a (ih (isWordChar a) as c h)
      · rw [htp] at hc
        exact tryPage_subset p (a :: as) r htp c (ih true r c hc)

theorem mem_pyStrip (s : List Char) : ∀ c ∈ pyStrip s, c ∈ s := by
  intro c hc
  rw [pyStrip, List.mem_reverse] at hc
  have h1 := (List.dropWhile_sublist (l := (s.dropWhile isPySpace).reverse)
    (p := isPySpace)).subset hc
  rw [List.mem_reverse] at h1
  exact (List.dropWhile_sublist (p := isPySpace)).subset h1

theorem clean_text_printable_mem (x : List Char) :
    ∀ c ∈ clean_text x, 0x20 ≤ c.toNat ∧ c.toNat ≤ 0x7E := by
  intro c hc
  rw [clean_text] at hc
  have h1 := mem_pyStrip _ c hc
  rw [fixSq, List.mem_map] at h1
  obtain ⟨c2, hc2, hc2e⟩ := h1
  rw [fixDq, List.mem_map] at hc2
  obtain ⟨c3, hc3, hc3e⟩ := hc2
  have h4 := mem_pageRemoveGo _ _ _ c3 hc3
  have h5 := mem_hyphenFixAux (fun a => 0x20 ≤ a.toNat ∧ a.toNat ≤ 0x7E)
    ⟨by decide, by decide⟩ _ [] false (by simp)
    (mem_asciiFilter_printable (collapseWs x)) c3 h4
  have h6 : 0x20 ≤ c2.toNat ∧ c2.toNat ≤ 0x7E := by
    rw [← hc3e]
    by_cases h : c3 = '“' || c3 = '”'
    · rw [if_pos h]; exact ⟨by decide, by decide⟩
    · rw [if_neg h]; exact h5
  rw [← hc2e]
  by_cases h : c2 = '‘' || c2 = '’'
  · rw [if_pos h]; exact ⟨by decide, by decide⟩
  · rw [if_neg h]; exact h6

/-! ### Conditional identity of each cleaning pass -/

theorem wsOk_tail (c : Char) (cs : List Char) (h : wsOk (c :: cs) = true) :
    wsOk cs = true := by
  match cs with
  | [] => rfl
  | d :: rest =>
    rw [wsOk, Bool.and_eq_true] at h
    exact h.2

theorem collapseWsAux_true_of_head (l : List Char)
    (hl : ∀ d, l.head? = some d → isPySpace d = false) :
    collapseWsAux true l = collapseWsAux false l := by
  match l with
  | [] => rfl
  | d :: ds =>
    have hd := hl d rfl
    rw [collapseWsAux, collapseWsAux, hd]
    simp

theorem collapseWsAux_id (s : List Char) (h : wsOk s = true) :
    collapseWsAux false s = s := by
  induction s with
  | nil => rfl
  | cons c cs ih =>
    rw [collapseWsAux]
    by_cases hc : isPySpace c
    · have hsp : c = ' ' ∧ ∀ d, cs.head? = some d → isPySpace d = false := by
        match cs with
        | [] =>
          rw [wsOk, hc, Bool.or_eq_true] at h
          simp only [Bool.not_true] at h
          rcases h with h | h
          · exact absurd h (by simp)
          · exact ⟨by simpa using h, by intro d hd; simp at hd⟩
        | d :: rest =>
          rw [wsOk, Bool.and_eq_true, Bool.or_eq_true] at h
          obtain ⟨h1, _⟩ := h
          rw [hc] at h1
          simp only [Bool.not_true] at h1
          rcases h1 with h1 | h1
          · exact absurd h1 (by simp)
          · rw [Bool.and_eq_true] at h1
            refine ⟨by simpa using h1.1, ?_⟩
            intro e he
            simp only [List.head?_cons, Option.some_inj] at he
            rw [← he]
            simpa using h1.2
      rw [hc]
      simp only [if_true]
      rw [collapseWsAux_true_of_head cs hsp.2, ih (wsOk_tail c cs h), hsp.1]
      simp
    · rw [if_neg hc]
      rw [ih (wsOk_tail c cs h)]

theorem hyphenOk_tail (c : Char) (cs : List Char) (h : hyphenOk (c :: cs) = true) :
    hyphenOk cs = true := by
  match cs with
  | [] => rfl
  | d :: rest =>
    rw [hyphenOk, Bool.and_eq_true, Bool.and_eq_true] at h
    exact h.2

theorem hyphenFixAux_id :
    ∀ s pending aD, hyphenOk s = true →
      (pending ≠ [] → s.head? ≠ some '-') →
      (aD = true → ∀ d, s.head? = some d → isPySpace d = false) →
      hyphenFixAux pending aD s = pending ++ s := by
  intro s
  induction s with
  | nil =>
    intro pending aD _ _ _
    rw [hyphenFixAux]
    simp
  | cons c cs ih =>
    intro pending aD hok hpend haD
    rw [hyphenFixAux]
    by_cases hc : isPySpace c
    · have haDf : aD = false := by
        cases aD with
        | false => rfl
        | true => exact absurd hc (by simp [haD rfl c rfl])
      subst haDf
      rw [hc]
      simp only [if_true]
      have hnext : cs.head? ≠ some '-' := by
        match cs with
        | [] => simp
        | d :: rest =>
          rw [hyphenOk, Bool.and_eq_true, Bool.and_eq_true] at hok
          have h1 := hok.1.1
          rw [hc] at h1
          simp only [Bool.true_and, Bool.not_eq_true, beq_eq_false_iff_ne] at h1
          simpa using h1
      rw [ih (pending ++ [c]) false (hyphenOk_tail c cs hok)
        (fun _ => hnext) (by intro hft; exact absurd hft (by simp))]
      simp
    · rw [if_neg hc]
      by_cases hdash : c = '-'
      · have hpnil : pending = [] := by
          by_contra hne
          exact hpend hne (by rw [hdash]; rfl)
        subst hpnil
        rw [if_pos hdash]
        have hnext : ∀ d, cs.head? = some d → isPySpace d = false := by
          match cs with
          | [] => intro d hd; simp at hd
          | d :: rest =>
            intro e he
            simp only [List.head?_cons, Option.some_inj] at he
            rw [hyphenOk, Bool.and_eq_true, Bool.and_eq_true] at hok
            have h2 := hok.1.2
            rw [hdash] at h2
            simp only [beq_self_eq_true, Bool.true_and, Bool.not_eq_true] at h2
            rw [← he]
            simpa using h2
        rw [ih [] true (hyphenOk_tail c cs hok) (by simp) (fun _ => hnext)]
        rw [hdash]
        simp
      · rw [if_neg hdash]
        rw [ih [] false (hyphenOk_tail c cs hok) (by simp)
          (by intro hft; exact absurd hft (by simp))]
        simp

theorem pageRemoveGo_id :
    ∀ f p s, containsPageTokGo f p s = false → pageRemoveGo f p s = s := by
  intro f
  induction f with
  | zero => intro p s _; rw [pageRemoveGo]
  | succ f ih =>
    intro p s h
    match s with
    | [] => rw [pageRemoveGo]
    | a :: as =>
      rw [containsPageTokGo] at h
      rw [pageRemoveGo]
      rcases htp : tryPage p (a :: as) with _ | r
      · rw [htp] at h
        exact congrArg (List.cons a) (ih (isWordChar a) as h)
      · rw [htp] at h
        exact absurd h (by simp)

theorem asciiFilter_id (s : List Char)
    (h : ∀ c ∈ s, 0x20 ≤ c.toNat ∧ c.toNat ≤ 0x7E) : asciiFilter s = s := by
  rw [asciiFilter]
  conv_rhs => rw [← List.map_id s]
  refine List.map_congr_left ?_
  intro a ha
  obtain ⟨h1, h2⟩ := h a ha
  have : (0x20 ≤ a.toNat && a.toNat ≤ 0x7E) = true := by
    rw [Bool.and_eq_true, decide_eq_true_iff, decide_eq_true_iff]
    exact ⟨h1, h2⟩
  rw [if_pos this]
  rfl

theorem fixDq_id (s : List Char)
    (h : ∀ c ∈ s, 0x20 ≤ c.toNat ∧ c.toNat ≤ 0x7E) : fixDq s = s := by
  rw [fixDq]
  conv_rhs => rw [← List.map_id s]
  refine List.map_congr_left ?_
  intro a ha
  obtain ⟨_, h2⟩ := h a ha
  have : ¬(a = '“' || a = '”') = true := by
    intro hq
    rw [Bool.or_eq_true, decide_eq_true_iff, decide_eq_true_iff] at hq
    rcases hq with hq | hq <;> (rw [hq] at h2; exact absurd h2 (by decide))
  rw [if_neg this]
  rfl

theorem fixSq_id (s : List Char)
    (h : ∀ c ∈ s, 0x20 ≤ c.toNat ∧ c.toNat ≤ 0x7E) : fixSq s = s := by
  rw [fixSq]
  conv_rhs => rw [← List.map_id s]
  refine List.map_congr_left ?_
  intro a ha
  obtain ⟨_, h2⟩ := h a ha
  have : ¬(a = '‘' || a = '’') = true := by
    intro hq
    rw [Bool.or_eq_true, decide_eq_true_iff, decide_eq_true_iff] at hq
    rcases hq with hq | hq <;> (rw [hq] at h2; exact absurd h2 (by decide))
  rw [if_neg this]
  rfl

theorem dropWhile_head_false (p : Char → Bool) (l : List Char)
    (h : ∀ d, l.head? = some d → p d = false) : l.dropWhile p = l := by
  match l with
  | [] => rfl
  | d :: ds => exact List.dropWhile_cons_of_neg (by simp [h d rfl])

theorem head_dropWhile_false (p : Char → Bool) (l : List Char) :
    ∀ d, (l.dropWhile p).head? = some d → p d = false := by
  intro d hd
  induction l with
  | nil => simp [List.dropWhile] at hd
  | cons a as ih =>
    by_cases ha : p a
    · rw [List.dropWhile_cons_of_pos ha] at hd
      exact ih hd
    · rw [List.dropWhile_cons_of_neg ha] at hd
      simp only [List.head?_cons, Option.some_inj] at hd
      rw [← hd]
      simpa using ha

theorem pyStrip_idem (s : List Char) : pyStrip (pyStrip s) = pyStrip s := by
  rcases hb : (s.dropWhile isPySpace).reverse.dropWhile isPySpace with _ | ⟨x, xs⟩
  · have h1 : pyStrip s = [] := by rw [pyStrip, hb]; rfl
    rw [h1]
    rfl
  · have hpy : pyStrip s = (x :: xs).reverse := by rw [pyStrip, hb]
    have hxfalse : isPySpace x = false :=
      head_dropWhile_false isPySpace (s.dropWhile isPySpace).reverse x (by rw [hb]; rfl)
    -- the last element of x :: xs is the head of `s.dropWhile isPySpace`,
    -- hence fails isPySpace as well
    have hlast : ∀ d, (x :: xs).getLast? = some d → isPySpace d = false := by
      intro d hd
      have hsuffix : x :: xs <:+ (s.dropWhile isPySpace).reverse := by
        rw [← hb]; exact List.dropWhile_suffix _
      obtain ⟨pre, hpre⟩ := hsuffix
      have : (s.dropWhile isPySpace).reverse.getLast? = some d := by
        rw [← hpre, List.getLast?_append_of_ne_nil pre (List.cons_ne_nil x xs)]
        exact hd
      rw [List.getLast?_reverse] at this
      exact head_dropWhile_false isPySpace s d this
    rw [hpy, pyStrip]
    have e1 : (x :: xs).reverse.dropWhile isPySpace = (x :: xs).reverse := by
      refine dropWhile_head_false isPySpace _ ?_
      intro d hd
      rw [List.head?_reverse] at hd
      exact hlast d hd
    rw [e1, List.reverse_reverse]
    have e2 : (x :: xs).dropWhile isPySpace = x :: xs :=
      List.dropWhile_cons_of_neg (by simp [hxfalse])
    rw [e2]

theorem collapseWs_id (s : List Char) (h : wsOk s = true) : collapseWs s = s :=
  collapseWsAux_id s h

theorem hyphenFix_id (s : List Char) (h : hyphenOk s = true) : hyphenFix s = s := by
  rw [hyphenFix, hyphenFixAux_id s [] false h (fun hne => absurd rfl hne)
    (by intro hft; simp at hft)]
  rfl

theorem pageRemove_id (s : List Char) (h : containsPageTok s = false) :
    pageRemove s = s :=
  pageRemoveGo_id s.length false s h

/-- The cleaner is idempotent exactly when no pass finds new work on the
cleaned output; this is the reusable core behind the amended claim C3. -/
theorem clean_text_stable (x : List Char)
    (h1 : wsOk (clean_text x) = true)
    (h2 : hyphenOk (clean_text x) = true)
    (h3 : containsPageTok (clean_text x) = false) :
    clean_text (clean_text x) = clean_text x := by
  have hrange := clean_text_printable_mem x
  conv_lhs => rw [clean_text]
  rw [collapseWs_id _ h1, asciiFilter_id _ hrange, hyphenFix_id _ h2,
    pageRemove_id _ h3, fixDq_id _ hrange, fixSq_id _ hrange]
  rw [clean_text]
  exact pyStrip_idem _

/-! ### Claim theorems -/

/-- C1 (counterexample): the chunker described with a left-trim-only step
between iterations differs from `split_text` on the input `"a.b "` with
`max_chars = 2`: the code's `strip()` also removes the trailing space, so
the code yields `["a.", "b"]` while the description yields `["a.", "b "]`. -/
theorem c1_split_text_leftTrim_false :
    split_textSpecLeftTrim (("a.b ").data) 2 ≠ split_text (("a.b ").data) 2 := by
  decide

/-- C1 (amended): for every text and every `max_chars`, `split_text` follows
the claimed procedure — scan the boundary characters in the fixed priority
order, take the right-most occurrence of each within the first `max_chars`
characters, pick the first boundary type with an occurrence at position
`> 0` and split right after it, else split at `max_chars` — provided the
remainder is trimmed of whitespace on BOTH ends (not only the left) before
the next iteration. -/
theorem c1_split_text_matches_spec (text : List Char) (max_chars : Nat) :
    split_textSpecBothTrim text max_chars = split_text text max_chars :=
  split_textSpecGo_bothTrim_eq max_chars (text.length + 1) text

/-- C2 (counterexample): the cleaner does not map the spec's example input
to the spec's example output: the curly quotes are replaced by spaces by the
non-printable pass (rule 2) before the quote-normalization pass (rule 5)
can straighten them. -/
theorem c2_clean_example_false :
    clean_text (("Hello\n\nPage 3   World’s  “Best”").data) ≠
      ("Hello World's \"Best\"").data := by
  decide

/-- C2 (amended): on the spec's example input the cleaner actually yields
`"Hello  World s  Best"`: the apostrophe and both curly double quotes
become spaces, removing `"Page 3"` leaves a double space, and the
whitespace-collapsing pass has already run and does not run again. -/
theorem c2_clean_example_actual :
    clean_text (("Hello\n\nPage 3   World’s  “Best”").data) =
      ("Hello  World s  Best").data := by
  decide

/-- C3 (counterexample): the cleaner is not idempotent.  On `"a“”b"` the
two curly quotes become two adjacent spaces (after the whitespace pass has
already run), and a second application collapses them to one. -/
theorem c3_clean_not_idempotent :
    clean_text (clean_text ['a', '“', '”', 'b']) ≠ clean_text ['a', '“', '”', 'b'] := by
  decide

/-- C3 (amended): the cleaner is idempotent on every input whose cleaned
form gives no pass new work: no whitespace character other than a single
space not followed by whitespace, no whitespace adjacent to a hyphen, and
no word-delimited `Page <digits>` token. -/
theorem c3_clean_idempotent_conditional (x : List Char)
    (h1 : wsOk (clean_text x) = true)
    (h2 : hyphenOk (clean_text x) = true)
    (h3 : containsPageTok (clean_text x) = false) :
    clean_text (clean_text x) = clean_text x :=
  clean_text_stable x h1 h2 h3

/-- Witness for C3: the conditional idempotence applied to the concrete
input `"hi"`. -/
theorem c3_clean_idempotent_conditional_w :
    clean_text (clean_text ['h', 'i']) = clean_text ['h', 'i'] :=
  c3_clean_idempotent_conditional ['h', 'i'] (by decide) (by decide) (by decide)

/-- C4 (counterexample): reinserting whitespace only between chunks cannot
rebuild `"a.b "` from its chunks `["a.", "b"]` at `max_chars = 2`: the
trailing space was removed by the `strip()` after the first split and no
between-chunk insertion can restore a final space. -/
theorem c4_rebuilds_between_false :
    ¬ RebuildsBetween (split_text (("a.b ").data) 2) (("a.b ").data) := by
  intro h
  have hs : split_text (("a.b ").data) 2 = [['a', '.'], ['b']] := by decide
  rw [hs] at h
  obtain ⟨w, t2, hw, heq, h2⟩ := h
  have ht2 : t2 = ['b'] := h2
  subst ht2
  have hlast : (("a.b ").data).getLast? = some ' ' := by decide
  rw [heq] at hlast
  have hb : ((['a', '.'] ++ w ++ ['b'] : List Char)).getLast? = some 'b' := by
    rw [show (['a', '.'] ++ w ++ ['b'] : List Char) = (['a', '.'] ++ w) ++ ['b'] from by
      simp [List.append_assoc]]
    rw [List.getLast?_append]
    rfl
  rw [hb] at hlast
  exact absurd hlast (by decide)

/-- C4 (amended): for every text and `max_chars ≥ 1`, the original text is
rebuilt from the chunks by reinserting the trimmed whitespace after each
chunk — between consecutive chunks AND after the final chunk (the code's
`strip()` also discards trailing whitespace of the remainder). -/
theorem c4_split_text_rebuilds (text : List Char) (max_chars : Nat)
    (h : 1 ≤ max_chars) : Rebuilds (split_text text max_chars) text :=
  split_text_rebuilds_aux max_chars h text.length text le_rfl

/-- Witness for C4 at the concrete input `"a.b "` with `max_chars = 2`. -/
theorem c4_split_text_rebuilds_w :
    Rebuilds (split_text (("a.b ").data) 2) (("a.b ").data) :=
  c4_split_text_rebuilds (("a.b ").data) 2 (by decide)

/-- C5: with `max_chars ≥ 1` every chunk produced by `split_text` has
length at most `max_chars` (the hard cut splits exactly at `max_chars`,
still within the bound). -/
theorem c5_chunk_length_le (text : List Char) (max_chars : Nat)
    (h : 1 ≤ max_chars) : ∀ c ∈ split_text text max_chars, c.length ≤ max_chars :=
  split_text_chunk_le_aux max_chars h text.length text le_rfl

/-- Witness for C5: the first chunk of `"a.b "` at `max_chars = 2` has
length at most 2. -/
theorem c5_chunk_length_le_w : (['a', '.'] : List Char).length ≤ 2 :=
  c5_chunk_length_le (("a.b ").data) 2 (by decide) ['a', '.'] (by decide)

/-- C6: when chunking yields no chunks (so no audio segments exist), the
assembly step of `convert_text_to_speech` fails with the IndexError from
`audio_segments[0]` — wrapped into the conversion-failure message — and
nothing is exported. -/
theorem c6_empty_assembly_error (synth : List Char → Except (List Char) (List Int))
    (text : List Char) (h : split_text text 1000 = []) :
    convert_text_to_speech true synth text =
      Except.error (ttsFailMsgHead ++ indexErrMsg) := by
  rw [convert_text_to_speech, h]
  rfl

/-- Witness for C6: the empty text yields zero chunks and the assembly
error. -/
theorem c6_empty_assembly_error_w :
    convert_text_to_speech true (fun _ => Except.ok []) [] =
      Except.error (ttsFailMsgHead ++ indexErrMsg) :=
  c6_empty_assembly_error (fun _ => Except.ok []) [] (by decide)

/-- C7: when extraction succeeds but yields the empty string, the pipeline
entry point returns the soft-failure pair `(False, "No text extracted …")`
— a total result, not a raised exception — for every downstream oracle. -/
theorem c7_empty_extraction_soft (pdf_path : List Char) (ffmpegAvailable : Bool)
    (synth : List Char → Except (List Char) (List Int)) :
    convert_pdf_to_speech pdf_path true ffmpegAvailable (Except.ok []) synth =
      (false, noTextMsg) := by
  rw [convert_pdf_to_speech]
  rfl

/-- General shape of a successful CLI run: with the input file present,
the output directory available and a succeeding pipeline, `main_cli`
reports success and attempts the sample-rate adjustment exactly when the
parsed speed differs from 1 — for any speed value whatsoever. -/
theorem main_cli_succeeds (args : CliArgs) (ffmpegAvailable : Bool)
    (extract : Except (List Char) (List Char))
    (synth : List Char → Except (List Char) (List Int)) (frame_rate : Nat)
    (hconv : (convert_pdf_to_speech args.pdf_file true ffmpegAvailable extract synth).1 = true) :
    main_cli args true true ffmpegAvailable extract synth frame_rate =
      CliResult.succeeded (if args.speed = 1 then none
        else some (pyInt ((frame_rate : Rat) * args.speed))) := by
  have h1 : main_cli args true true ffmpegAvailable extract synth frame_rate =
      (match convert_pdf_to_speech args.pdf_file true ffmpegAvailable extract synth with
       | (true, _) => if args.speed = 1 then CliResult.succeeded none
         else CliResult.succeeded (some (pyInt ((frame_rate : Rat) * args.speed)))
       | (false, msg) => CliResult.failed msg) := rfl
  rcases hc : convert_pdf_to_speech args.pdf_file true ffmpegAvailable extract synth with ⟨b, msg⟩
  rw [hc] at hconv
  simp only at hconv
  subst hconv
  rw [h1, hc]
  show (if args.speed = 1 then CliResult.succeeded none
      else CliResult.succeeded (some (pyInt ((frame_rate : Rat) * args.speed)))) =
    CliResult.succeeded (if args.speed = 1 then none
      else some (pyInt ((frame_rate : Rat) * args.speed)))
  by_cases hs : args.speed = 1
  · rw [if_pos hs, if_pos hs]
  · rw [if_neg hs, if_neg hs]

/-- C8 (counterexample): speed 5 lies outside the documented range
[0.5, 2.0], yet the CLI runs the whole conversion with it and applies the
sample-rate reinterpretation `int(22050 * 5) = 110250`: no range check
exists after the plain `type=float` conversion of the argument parser. -/
theorem c8_speed_range_unenforced :
    ¬ ((1 : Rat) / 2 ≤ 5 ∧ (5 : Rat) ≤ 2) ∧
    main_cli { pdf_file := ("in.pdf").data, output_file := ("out.mp3").data, speed := 5 }
      true true true (Except.ok (("a").data)) (fun _ => Except.ok [0]) 22050 =
      CliResult.succeeded (some 110250) := by
  refine ⟨by norm_num, ?_⟩
  rw [main_cli_succeeds _ _ _ _ _ (by rfl)]
  show CliResult.succeeded
      (if (5 : Rat) = 1 then none
       else some (pyInt (((22050 : Nat) : Rat) * (5 : Rat)))) =
    CliResult.succeeded (some 110250)
  rw [if_neg (show ¬ (5 : Rat) = 1 by norm_num)]
  have hmul : ((22050 : Nat) : Rat) * 5 = ((110250 : Int) : Rat) := by norm_num
  rw [hmul, pyInt]
  rw [if_pos (show (0 : Rat) ≤ ((110250 : Int) : Rat) by norm_num)]
  rw [Int.floor_intCast]

/-- C8 (amended): the speed option (`-s`, long form `--speed`) is a plain
float with default 1.0; the documented range 0.5-2.0 is not validated, so
whenever the pipeline succeeds the CLI completes with ANY supplied speed,
applying the sample-rate adjustment `int(frame_rate * speed)` exactly when
the speed is not 1. -/
theorem c8_speed_unvalidated (s : Rat) (p o l : List Char)
    (ffmpegAvailable : Bool) (extract : Except (List Char) (List Char))
    (synth : List Char → Except (List Char) (List Int)) (frame_rate : Nat)
    (hconv : (convert_pdf_to_speech p true ffmpegAvailable extract synth).1 = true) :
    main_cli { pdf_file := p, output_file := o, lang := l, speed := s }
      true true ffmpegAvailable extract synth frame_rate =
      CliResult.succeeded (if s = 1 then none
        else some (pyInt ((frame_rate : Rat) * s))) :=
  main_cli_succeeds { pdf_file := p, output_file := o, lang := l, speed := s }
    ffmpegAvailable extract synth frame_rate hconv

/-- Witness for C8: a concrete successful run at speed 3. -/
theorem c8_speed_unvalidated_w :
    main_cli { pdf_file := ("in.pdf").data, output_file := ("out.mp3").data, speed := 3 }
      true true true (Except.ok (("a").data)) (fun _ => Except.ok [0]) 100 =
      CliResult.succeeded (if (3 : Rat) = 1 then none
        else some (pyInt ((100 : Rat) * 3))) :=
  c8_speed_unvalidated 3 (("in.pdf").data) (("out.mp3").data) (("en").data)
    true (Except.ok (("a").data)) (fun _ => Except.ok [0]) 100 (by rfl)

/-- C9: for `max_chars ≥ 1` the chunking loop terminates — any fuel above
the text length computes the same chunk list (each iteration emits a chunk
and strictly shrinks the rest), and every chunk is non-empty; for
`max_chars = 0` on the non-trimmable input `"ab"` the loop instead emits
one empty chunk per unit of fuel, i.e. it never finishes. -/
theorem c9_split_text_terminates (text : List Char) (max_chars : Nat)
    (h : 1 ≤ max_chars) :
    (∀ fuel, text.length < fuel →
      split_textGo max_chars fuel text = split_text text max_chars) ∧
    (∀ c ∈ split_text text max_chars, c ≠ []) ∧
    (∀ fuel, split_textGo 0 fuel ['a', 'b'] = List.replicate fuel []) :=
  ⟨fun fuel hf => split_textGo_fuel max_chars h text.length text fuel le_rfl hf,
   split_text_chunks_ne_nil_aux max_chars h text.length text le_rfl,
   split_textGo_zero_ab⟩

/-- Witness for C9: extra fuel does not change the chunks of `"a.b "` at
`max_chars = 2`. -/
theorem c9_split_text_terminates_w :
    split_textGo 2 9 (("a.b ").data) = split_text (("a.b ").data) 2 :=
  (c9_split_text_terminates (("a.b ").data) 2 (by decide)).1 9 (by decide)

/-- C10: every character of every cleaner output lies in the printable
ASCII range 0x20-0x7E: the non-printable pass maps everything into the
range and no later pass leaves it (in particular curly quotes are gone
before the quote-normalization pass). -/
theorem c10_clean_printable (x : List Char) (c : Char) (h : c ∈ clean_text x) :
    0x20 ≤ c.toNat ∧ c.toNat ≤ 0x7E :=
  clean_text_printable_mem x c h

/-- Witness for C10 at the concrete output character 'a' of cleaning "a". -/
theorem c10_clean_printable_w : 0x20 ≤ 'a'.toNat ∧ 'a'.toNat ≤ 0x7E :=
  c10_clean_printable ['a'] 'a' (by decide)
